import Mathlib

/-!
Verification of the k-mer frequency pipeline (miniproject_solution.py).

Sequences and k-mer strings are modelled as `List Char`.  Python dictionaries
are modelled as association lists with insert-or-update semantics (`aset`):
setting an existing key updates it in place, setting a fresh key appends it,
which matches CPython's insertion-ordered dict.  Floating-point division in
the normalization step is modelled over `ℚ`, with pandas' NaN results
(missing cells, division of a zero-total column) modelled as `none`.
-/

/-- The space character, the separator used by record_name.split in main. -/
def spaceChar : Char := Char.ofNat 32

/-- Lexicographic comparison of character lists by code point, the order used
by sort_index on the row labels. -/
def listLe : List Char → List Char → Bool
  | [], _ => true
  | _ :: _, [] => false
  | a :: as, b :: bs =>
    if a.toNat < b.toNat then true
    else if b.toNat < a.toNat then false
    else listLe as bs

/-- Python dict lookup d[k], none when the key is absent (KeyError). -/
def alookup {α : Type} (k : List Char) : List (List Char × α) → Option α
  | [] => none
  | p :: rest => if p.1 = k then some p.2 else alookup k rest

/-- The keys of a dict, in insertion order. -/
def akeys {α : Type} (d : List (List Char × α)) : List (List Char) :=
  d.map Prod.fst

/-- Python dict assignment d[k] = v: update in place when the key exists,
append otherwise. -/
def aset {α : Type} (d : List (List Char × α)) (k : List Char) (v : α) :
    List (List Char × α) :=
  if k ∈ akeys d then d.map (fun p => if p.1 = k then (k, v) else p)
  else d ++ [(k, v)]

/-- Modelled from the spec: the collaborator "k-mer extractor (single strand)"
(handle_kmers.extract_kmers, from argparse_example, not under src/): given
sequence and k it returns the ordered list of k-length substrings at every
valid start offset (0-indexed, overlapping, stride 1); empty when k exceeds
the sequence length. -/
def extract_kmers (sequence : List Char) (k : Nat) : List (List Char) :=
  if sequence.length < k then []
  else (List.range (sequence.length - k + 1)).map
    (fun i => (sequence.drop i).take k)

/-- Modelled from the spec: Watson-Crick pairing of one base, used by the
reverse-complement collaborator. -/
def complement_base (c : Char) : Char :=
  if c = 'A' then 'T'
  else if c = 'T' then 'A'
  else if c = 'C' then 'G'
  else if c = 'G' then 'C'
  else c

/-- Modelled from the spec: the collaborator reverse_complement (from
modded_script_example, not under src/): substitute each base with its
complementary base and reverse the order. -/
def reverse_complement (sequence : List Char) : List Char :=
  (sequence.map complement_base).reverse

/-- extract_all_kmers from the source: k-mers of the forward sequence followed
by the k-mers of its reverse complement. -/
def extract_all_kmers (sequence : List Char) (k : Nat) : List (List Char) :=
  extract_kmers sequence k ++ extract_kmers (reverse_complement sequence) k

/-- get_unique_kmers from the source: pool the k-mers of every sequence into
one list, then keep the distinct ones (Python set). -/
def get_unique_kmers (sequences : List (List Char × List Char)) (k : Nat) :
    List (List Char) :=
  ((sequences.map (fun p => extract_all_kmers p.2 k)).flatten).dedup

/-- The zero-initialization loop of count_kmers: kmer_counts[kmer] = 0 for
every kmer of the index. -/
def init_counts (kmer_index : List (List Char)) : List (List Char × Nat) :=
  kmer_index.foldl (fun d km => aset d km 0) []

/-- The increment loop of count_kmers: kmer_counts[kmer] += 1; a k-mer absent
from the dict raises KeyError, modelled as none. -/
def incr_counts (d : List (List Char × Nat)) :
    List (List Char) → Option (List (List Char × Nat))
  | [] => some d
  | km :: rest =>
    match alookup km d with
    | none => none
    | some c => incr_counts (aset d km (c + 1)) rest

/-- count_kmers from the source: zero-fill the universe, then increment once
per occurrence in the k-mer list. -/
def count_kmers (kmer_index : List (List Char)) (kmers : List (List Char)) :
    Option (List (List Char × Nat)) :=
  incr_counts (init_counts kmer_index) kmers

/-- The total of one sequence's count dict: the column sum computed by
kmer_freq_index.sum(axis=0). -/
def colTotal (d : List (List Char × Nat)) : Nat :=
  (d.map Prod.snd).sum

/-- One cell of the normalized frequency table, as pandas computes it:
count divided by the column's own sum.  A key missing from that column's
dict is NaN in the assembled DataFrame, and a zero column total makes the
division produce NaN as well; both are modelled as none. -/
def freqEntry (acc : List (List Char × List (List Char × Nat)))
    (km s : List Char) : Option ℚ :=
  match alookup s acc with
  | none => none
  | some d =>
    match alookup km d with
    | none => none
    | some c =>
      if colTotal d = 0 then none
      else some ((c : ℚ) / (colTotal d : ℚ))

/-- The row labels of the frequency table: the union of the per-sequence key
sets, sorted lexicographically by sort_index. -/
def freqRows (acc : List (List Char × List (List Char × Nat))) :
    List (List Char) :=
  ((acc.map (fun p => akeys p.2)).flatten.dedup).mergeSort listLe

/-- The frequency table produced by build_kmer_freq_index: row labels, column
labels and the cell contents. -/
structure FreqIndex where
  rows : List (List Char)
  cols : List (List Char)
  entry : List Char → List Char → Option ℚ

/-- build_kmer_freq_index from the source: assemble the per-sequence count
dicts into a table (rows sorted by sort_index, one column per dict key) and
divide every column by its own sum. -/
def build_kmer_freq_index (acc : List (List Char × List (List Char × Nat))) :
    FreqIndex :=
  ⟨freqRows acc, acc.map Prod.fst, fun km s => freqEntry acc km s⟩

/-- The display identifier computed in main: record_name.split(' ')[0][1:],
that is, the prefix before the first space with its first character removed. -/
def display_id (record_name : List Char) : List Char :=
  (record_name.takeWhile (fun c => c ≠ spaceChar)).drop 1

/-- Stated from the claim's words, for comparison with display_id: the header
with the leading > stripped and truncated at the first whitespace
character. -/
def display_id_spec (record_name : List Char) : List Char :=
  (record_name.drop 1).takeWhile (fun c => ¬ c.isWhitespace)

/-- The accumulation loop of main: for each record, count its k-mers against
the shared universe and store the dict under the record's display
identifier. -/
def accumCounts (unique : List (List Char)) (k : Nat)
    (acc : List (List Char × List (List Char × Nat))) :
    List (List Char × List Char) →
      Option (List (List Char × List (List Char × Nat)))
  | [] => some acc
  | (record_name, sequence) :: rest =>
    match count_kmers unique (extract_all_kmers sequence k) with
    | none => none
    | some d => accumCounts unique k (aset acc (display_id record_name) d) rest

/-- The count-gathering part of main: build the universe once, then
accumulate every record's counts keyed by display identifier. -/
def mainCounts (sequences : List (List Char × List Char)) (k : Nat) :
    Option (List (List Char × List (List Char × Nat))) :=
  accumCounts (get_unique_kmers sequences k) k [] sequences

/-- The attributes of a matplotlib Axes object that this program's plotting
code could mean: hist and set_title exist; dynamic lookup of any other name
raises AttributeError. -/
def axesAttrs : List String := ["hist", "set_title"]

/-- Dynamic attribute lookup on an Axes object, as Python performs it for
ax.his and ax.set_title. -/
def getattrAxes (attrName : String) : Except String String :=
  if attrName ∈ axesAttrs then Except.ok attrName
  else Except.error ("AttributeError: " ++ attrName)

/-- The subplot loop of all_kmer_counts_hist: for every record it resolves
and calls ax.his(counts) and ax.set_title(record_name); on success a subplot
would show the record's list of per-k-mer occurrence counts. -/
def plotSubplots :
    List (List Char × List (List Char × Nat)) →
      Except String (List (List Char × List Nat))
  | [] => Except.ok []
  | (record_name, kmer_counts) :: rest =>
    match getattrAxes ("his") with
    | Except.error e => Except.error e
    | Except.ok _ =>
      match getattrAxes ("set_title") with
      | Except.error e => Except.error e
      | Except.ok _ =>
        match plotSubplots rest with
        | Except.error e => Except.error e
        | Except.ok acc =>
          Except.ok ((record_name, kmer_counts.map Prod.snd) :: acc)

/-- all_kmer_counts_hist from the source: one shared-y-axis subplot per
record, populated by the loop above. -/
def all_kmer_counts_hist (all_kmer_counts :
    List (List Char × List (List Char × Nat))) :
    Except String (List (List Char × List Nat)) :=
  plotSubplots all_kmer_counts

/-- The keys of an empty dict. -/
@[simp] theorem akeys_nil {α : Type} : akeys ([] : List (List Char × α)) = [] :=
  rfl

/-- The keys of a dict with a leading entry. -/
@[simp] theorem akeys_cons {α : Type} (p : List Char × α)
    (d : List (List Char × α)) : akeys (p :: d) = p.1 :: akeys d :=
  rfl

/-- Keys distribute over dict concatenation. -/
theorem akeys_append {α : Type} (d₁ d₂ : List (List Char × α)) :
    akeys (d₁ ++ d₂) = akeys d₁ ++ akeys d₂ := by
  simp [akeys]

/-- Lookup misses exactly on the keys the dict does not have. -/
theorem alookup_eq_none {α : Type} {k : List Char}
    {d : List (List Char × α)} : alookup k d = none ↔ k ∉ akeys d := by
  induction d with
  | nil => simp [alookup]
  | cons p rest ih =>
    by_cases hk : p.1 = k
    · simp [alookup, hk]
    · simp [alookup, hk, ih]
      exact fun _ hh => hk hh.symm

/-- Every present key has a value. -/
theorem mem_akeys_alookup {α : Type} {k : List Char}
    {d : List (List Char × α)} (h : k ∈ akeys d) :
    ∃ v, alookup k d = some v := by
  induction d with
  | nil => simp at h
  | cons p rest ih =>
    by_cases hk : p.1 = k
    · exact ⟨p.2, by simp [alookup, hk]⟩
    · simp at h
      rcases h with h | h
      · exact absurd h.symm hk
      · rcases ih h with ⟨v, hv⟩
        exact ⟨v, by simp [alookup, hk, hv]⟩

/-- A successful lookup witnesses key membership. -/
theorem alookup_some_mem {α : Type} {k : List Char} {v : α}
    {d : List (List Char × α)} (h : alookup k d = some v) : k ∈ akeys d := by
  by_contra hmem
  rw [alookup_eq_none.mpr hmem] at h
  exact Option.noConfusion h

/-- Lookup in a concatenation tries the left dict first. -/
theorem alookup_append {α : Type} (k : List Char)
    (d₁ d₂ : List (List Char × α)) :
    alookup k (d₁ ++ d₂) =
      match alookup k d₁ with
      | some v => some v
      | none => alookup k d₂ := by
  induction d₁ with
  | nil => simp [alookup]
  | cons p rest ih =>
    by_cases hk : p.1 = k
    · simp [alookup, hk]
    · simp [alookup, hk, ih]

/-- Setting a key makes it look up to the new value. -/
theorem alookup_aset_self {α : Type} (d : List (List Char × α))
    (k : List Char) (v : α) : alookup k (aset d k v) = some v := by
  unfold aset
  by_cases hmem : k ∈ akeys d
  · simp only [hmem, if_true]
    induction d with
    | nil => simp at hmem
    | cons p rest ih =>
      by_cases hk : p.1 = k
      · simp [alookup, hk]
      · simp at hmem
        rcases hmem with h | h
        · exact absurd h.symm hk
        · simp [alookup, hk, ih h]
  · simp only [hmem, if_false]
    rw [alookup_append]
    rw [alookup_eq_none.mpr hmem]
    simp [alookup]

/-- Updating entries with one key leaves every other key's lookup alone. -/
theorem alookup_map_update_ne {α : Type} (d : List (List Char × α))
    (k k' : List Char) (v : α) (h : k' ≠ k) :
    alookup k' (d.map (fun p => if p.1 = k then (k, v) else p)) =
      alookup k' d := by
  induction d with
  | nil => simp [alookup]
  | cons p rest ih =>
    by_cases hk : p.1 = k
    · have h1 : ¬ (k = k') := fun hh => h hh.symm
      have h2 : ¬ (p.1 = k') := by rw [hk]; exact h1
      simp [alookup, hk, h1, h2, ih]
    · simp [alookup, hk, ih]

/-- Setting one key leaves every other key's lookup unchanged. -/
theorem alookup_aset_ne {α : Type} (d : List (List Char × α))
    (k k' : List Char) (v : α) (h : k' ≠ k) :
    alookup k' (aset d k v) = alookup k' d := by
  unfold aset
  by_cases hmem : k ∈ akeys d
  · simp only [hmem, if_true]
    exact alookup_map_update_ne d k k' v h
  · simp only [hmem, if_false]
    rw [alookup_append]
    cases hcase : alookup k' d with
    | some v' => simp
    | none =>
      have h1 : ¬ (k = k') := fun hh => h hh.symm
      simp [alookup, h1]

/-- Updating an absent key is the identity on the dict. -/
theorem map_update_id {α : Type} (d : List (List Char × α)) (k : List Char)
    (v : α) (h : k ∉ akeys d) :
    d.map (fun p => if p.1 = k then (k, v) else p) = d := by
  induction d with
  | nil => simp
  | cons q qs ih =>
    have hq : ¬ (q.1 = k) := by
      intro hh
      exact h (by simp [hh])
    have hqs : k ∉ akeys qs := fun hh => h (by simp [hh])
    simp [hq, ih hqs]

/-- Updating entries in place does not change the key list. -/
theorem akeys_map_update {α : Type} (d : List (List Char × α)) (k : List Char)
    (v : α) :
    akeys (d.map (fun p => if p.1 = k then (k, v) else p)) = akeys d := by
  induction d with
  | nil => simp
  | cons q qs ih =>
    by_cases hq : q.1 = k
    · simp [hq, ih]
    · simp [hq, ih]

/-- Setting a key keeps the key list when the key is present, otherwise
appends it. -/
theorem akeys_aset {α : Type} (d : List (List Char × α)) (k : List Char)
    (v : α) :
    akeys (aset d k v) =
      if k ∈ akeys d then akeys d else akeys d ++ [k] := by
  unfold aset
  by_cases hmem : k ∈ akeys d
  · simp only [hmem, if_true]
    exact akeys_map_update d k v
  · simp only [hmem, if_false]
    rw [akeys_append]
    rfl

/-- Setting a key preserves distinctness of the keys. -/
theorem akeys_aset_nodup {α : Type} (d : List (List Char × α)) (k : List Char)
    (v : α) (h : (akeys d).Nodup) : (akeys (aset d k v)).Nodup := by
  rw [akeys_aset]
  by_cases hmem : k ∈ akeys d
  · simpa [hmem] using h
  · simp only [hmem, if_false]
    simpa [List.nodup_append] using ⟨h, hmem⟩

/-- Replacing a present key's value by its successor raises the column total
by exactly one. -/
theorem colTotal_map_incr (d : List (List Char × Nat)) (k : List Char)
    (c : Nat) (hnd : (akeys d).Nodup) (hc : alookup k d = some c) :
    colTotal (d.map (fun p => if p.1 = k then (k, c + 1) else p)) =
      colTotal d + 1 := by
  induction d with
  | nil => simp [alookup] at hc
  | cons p rest ih =>
    by_cases hk : p.1 = k
    · have hval : p.2 = c := by
        rw [alookup, if_pos hk] at hc
        exact Option.some.inj hc
      have hr : k ∉ akeys rest := by
        rw [akeys_cons] at hnd
        rw [← hk]
        exact (List.nodup_cons.mp hnd).1
      rw [List.map_cons, if_pos hk, map_update_id rest k (c + 1) hr]
      simp only [colTotal, List.map_cons, List.sum_cons]
      omega
    · have hnd2 : (akeys rest).Nodup := by
        rw [akeys_cons] at hnd
        exact (List.nodup_cons.mp hnd).2
      have hc2 : alookup k rest = some c := by
        rw [alookup, if_neg hk] at hc
        exact hc
      have hrec := ih hnd2 hc2
      rw [List.map_cons, if_neg hk]
      simp only [colTotal, List.map_cons, List.sum_cons] at hrec ⊢
      omega

/-- Incrementing a present key raises the column total by exactly one. -/
theorem colTotal_aset_incr (d : List (List Char × Nat)) (k : List Char)
    (c : Nat) (hnd : (akeys d).Nodup) (hc : alookup k d = some c) :
    colTotal (aset d k (c + 1)) = colTotal d + 1 := by
  have hmem : k ∈ akeys d := alookup_some_mem hc
  unfold aset
  simp only [hmem, if_true]
  exact colTotal_map_incr d k c hnd hc

/-- The zero-initialization fold, started from any dict disjoint from the
keys still to be inserted, appends one zero entry per key. -/
theorem init_counts_aux (ks : List (List Char))
    (d : List (List Char × Nat)) (hnd : ks.Nodup)
    (hdisj : ∀ k ∈ ks, k ∉ akeys d) :
    ks.foldl (fun d km => aset d km 0) d =
      d ++ ks.map (fun km => (km, 0)) := by
  induction ks generalizing d with
  | nil => simp
  | cons k rest ih =>
    have hk : k ∉ akeys d := hdisj k (by simp)
    have hstep : aset d k 0 = d ++ [(k, 0)] := by
      unfold aset
      simp [hk]
    have hdisj2 : ∀ k' ∈ rest, k' ∉ akeys (d ++ [(k, 0)]) := by
      intro k' hk'
      rw [akeys_append]
      simp only [List.mem_append, not_or]
      refine ⟨hdisj k' (by simp [hk']), ?_⟩
      have hne : k' ≠ k := by
        intro hh
        exact (List.nodup_cons.mp hnd).1 (hh ▸ hk')
      simpa [akeys] using hne
    rw [List.foldl_cons, hstep,
      ih (d ++ [(k, 0)]) (List.nodup_cons.mp hnd).2 hdisj2]
    simp

/-- The zero-initialization of count_kmers zero-fills exactly the universe. -/
theorem init_counts_eq (kmer_index : List (List Char))
    (hnd : kmer_index.Nodup) :
    init_counts kmer_index = kmer_index.map (fun km => (km, 0)) := by
  unfold init_counts
  rw [init_counts_aux kmer_index [] hnd (by simp)]
  simp

/-- The keys of the zero-initialized dict are the universe itself. -/
theorem akeys_init_counts (kmer_index : List (List Char))
    (hnd : kmer_index.Nodup) : akeys (init_counts kmer_index) = kmer_index := by
  rw [init_counts_eq kmer_index hnd]
  unfold akeys
  rw [List.map_map]
  exact List.map_id'' (fun x => rfl) kmer_index

/-- The zero-initialized dict has column total zero. -/
theorem colTotal_init_counts (kmer_index : List (List Char))
    (hnd : kmer_index.Nodup) : colTotal (init_counts kmer_index) = 0 := by
  rw [init_counts_eq kmer_index hnd]
  simp only [colTotal, List.map_map]
  exact List.sum_eq_zero (by simp)

/-- The increment loop succeeds when every k-mer is a key, keeps the key
list, and adds the number of processed k-mers to the column total. -/
theorem incr_counts_spec (kmers : List (List Char))
    (d : List (List Char × Nat)) (hnd : (akeys d).Nodup)
    (hmem : ∀ km ∈ kmers, km ∈ akeys d) :
    ∃ d₂, incr_counts d kmers = some d₂ ∧ akeys d₂ = akeys d ∧
      colTotal d₂ = colTotal d + kmers.length := by
  induction kmers generalizing d with
  | nil => exact ⟨d, rfl, rfl, by simp⟩
  | cons km rest ih =>
    have hk : km ∈ akeys d := hmem km (by simp)
    obtain ⟨c, hc⟩ := mem_akeys_alookup hk
    have hkeys : akeys (aset d km (c + 1)) = akeys d := by
      rw [akeys_aset]
      simp [hk]
    have hnd2 : (akeys (aset d km (c + 1))).Nodup := akeys_aset_nodup d km _ hnd
    have hmem2 : ∀ km' ∈ rest, km' ∈ akeys (aset d km (c + 1)) := by
      intro km' hkm'
      rw [hkeys]
      exact hmem km' (by simp [hkm'])
    obtain ⟨d₂, h1, h2, h3⟩ := ih (aset d km (c + 1)) hnd2 hmem2
    refine ⟨d₂, ?_, by rw [h2, hkeys], ?_⟩
    · rw [incr_counts, hc]
      exact h1
    · rw [h3, colTotal_aset_incr d km c hnd hc]
      simp only [List.length_cons]
      omega

/-- count_kmers over a duplicate-free universe covering the k-mer list:
one entry per universe k-mer and total equal to the list length. -/
theorem count_kmers_complete (kmer_index kmers : List (List Char))
    (hnd : kmer_index.Nodup) (hmem : ∀ km ∈ kmers, km ∈ kmer_index) :
    ∃ d, count_kmers kmer_index kmers = some d ∧ akeys d = kmer_index ∧
      colTotal d = kmers.length := by
  unfold count_kmers
  have hkeys := akeys_init_counts kmer_index hnd
  have hnd2 : (akeys (init_counts kmer_index)).Nodup := by
    rw [hkeys]
    exact hnd
  have hmem2 : ∀ km ∈ kmers, km ∈ akeys (init_counts kmer_index) := by
    intro km hkm
    rw [hkeys]
    exact hmem km hkm
  obtain ⟨d, h1, h2, h3⟩ := incr_counts_spec kmers _ hnd2 hmem2
  refine ⟨d, h1, by rw [h2, hkeys], ?_⟩
  rw [h3, colTotal_init_counts kmer_index hnd]
  omega

/-- The lexicographic comparison is total. -/
theorem listLe_total : ∀ a b : List Char, (listLe a b || listLe b a) = true := by
  intro a
  induction a with
  | nil => intro b; simp [listLe]
  | cons x xs ih =>
    intro b
    cases b with
    | nil => simp [listLe]
    | cons y ys =>
      simp only [listLe]
      by_cases h1 : x.toNat < y.toNat
      · simp [h1]
      · by_cases h2 : y.toNat < x.toNat
        · simp [h1, h2]
        · simp [h1, h2, ih ys]

/-- The lexicographic comparison is transitive. -/
theorem listLe_trans : ∀ a b c : List Char,
    listLe a b = true → listLe b c = true → listLe a c = true := by
  intro a
  induction a with
  | nil => intro b c _ _; simp [listLe]
  | cons x xs ih =>
    intro b c hab hbc
    cases b with
    | nil => simp [listLe] at hab
    | cons y ys =>
      cases c with
      | nil => simp [listLe] at hbc
      | cons z zs =>
        simp only [listLe] at hab hbc ⊢
        by_cases h1 : x.toNat < y.toNat
        · by_cases h2 : y.toNat < z.toNat
          · have h3 : x.toNat < z.toNat := by omega
            simp [h3]
          · by_cases h3 : z.toNat < y.toNat
            · simp [h2, h3] at hbc
            · have h4 : x.toNat < z.toNat := by omega
              simp [h4]
        · by_cases h2 : y.toNat < x.toNat
          · simp [h1, h2] at hab
          · simp only [h1, h2, if_false] at hab
            by_cases h3 : y.toNat < z.toNat
            · have h4 : x.toNat < z.toNat := by omega
              simp [h4]
            · by_cases h4 : z.toNat < y.toNat
              · simp [h3, h4] at hbc
              · simp only [h3, h4, if_false] at hbc
                have h5 : ¬ x.toNat < z.toNat := by omega
                have h6 : ¬ z.toNat < x.toNat := by omega
                simp only [h5, h6, if_false]
                exact ih ys zs hab hbc

/-- Membership in a dict with distinct keys determines the lookup. -/
theorem alookup_of_mem_nodup {α : Type} {d : List (List Char × α)}
    {p : List Char × α} (hnd : (akeys d).Nodup) (hp : p ∈ d) :
    alookup p.1 d = some p.2 := by
  induction d with
  | nil => simp at hp
  | cons q rest ih =>
    rcases (by simpa using hp) with h | h
    · rw [h, alookup, if_pos rfl]
    · have hq : ¬ (q.1 = p.1) := by
        intro hh
        have : p.1 ∈ akeys rest := by
          simp only [akeys, List.mem_map]
          exact ⟨p, h, rfl⟩
        rw [akeys_cons] at hnd
        exact (List.nodup_cons.mp hnd).1 (hh ▸ this)
      rw [alookup, if_neg hq]
      exact ih (List.nodup_cons.mp (by simpa using hnd)).2 h

/-- Summing every key's looked-up value over a dict with distinct keys gives
the column total (cast to ℚ). -/
theorem sum_alookup_eq_colTotal (d : List (List Char × Nat))
    (hnd : (akeys d).Nodup) :
    ((akeys d).map (fun km => (((alookup km d).getD 0 : Nat) : ℚ))).sum =
      (colTotal d : ℚ) := by
  induction d with
  | nil => simp [akeys, colTotal]
  | cons p rest ih =>
    have hp : p.1 ∉ akeys rest := (List.nodup_cons.mp (by simpa using hnd)).1
    have hnd2 : (akeys rest).Nodup :=
      (List.nodup_cons.mp (by simpa using hnd)).2
    have hmapeq : (akeys rest).map
        (fun km => (((alookup km (p :: rest)).getD 0 : Nat) : ℚ)) =
        (akeys rest).map (fun km => (((alookup km rest).getD 0 : Nat) : ℚ)) := by
      apply List.map_congr_left
      intro km hkm
      have hne : ¬ (p.1 = km) := by
        intro hh
        exact hp (hh ▸ hkm)
      rw [alookup, if_neg hne]
    rw [akeys_cons, List.map_cons, List.sum_cons, hmapeq, ih hnd2]
    rw [alookup, if_pos rfl]
    simp only [colTotal, List.map_cons, List.sum_cons, Option.getD_some]
    push_cast
    ring

/-- Dividing every element before summing equals dividing the sum. -/
theorem sum_map_div (l : List ℚ) (t : ℚ) :
    (l.map (fun x => x / t)).sum = l.sum / t := by
  induction l with
  | nil => simp
  | cons x xs ih => simp [ih, add_div]

/-- The k-mer universe never holds duplicates. -/
theorem get_unique_kmers_nodup (sequences : List (List Char × List Char))
    (k : Nat) : (get_unique_kmers sequences k).Nodup :=
  List.nodup_dedup _

/-- Every k-mer extracted from a listed sequence lies in the universe. -/
theorem mem_get_unique_kmers (sequences : List (List Char × List Char))
    (k : Nat) (name seq : List Char) (hmem : (name, seq) ∈ sequences)
    (km : List Char) (hkm : km ∈ extract_all_kmers seq k) :
    km ∈ get_unique_kmers sequences k := by
  unfold get_unique_kmers
  rw [List.mem_dedup, List.mem_flatten]
  refine ⟨extract_all_kmers seq k, ?_, hkm⟩
  rw [List.mem_map]
  exact ⟨(name, seq), hmem, rfl⟩

/-- The length of the single-strand k-mer list, as an integer clamp. -/
theorem extract_kmers_length (s : List Char) (k : Nat) :
    (extract_kmers s k).length = ((s.length : ℤ) - k + 1).toNat := by
  by_cases h : s.length < k
  · simp only [extract_kmers, h, if_true, List.length_nil]
    omega
  · simp only [extract_kmers, h, if_false, List.length_map, List.length_range]
    omega

/-- The reverse complement keeps the sequence length. -/
theorem reverse_complement_length (s : List Char) :
    (reverse_complement s).length = s.length := by
  simp [reverse_complement]

/-- C1: for a duplicate-free universe covering the k-mer list, count_kmers
returns a mapping with exactly one entry per universe k-mer, every value a
non-negative integer, and the values summing to the length of the k-mer
list. -/
theorem c1_count_kmers_spec (kmer_index kmers : List (List Char))
    (hnd : kmer_index.Nodup) (hmem : ∀ km ∈ kmers, km ∈ kmer_index) :
    ∃ d, count_kmers kmer_index kmers = some d ∧ akeys d = kmer_index ∧
      (∀ p ∈ d, 0 ≤ p.2) ∧ (d.map Prod.snd).sum = kmers.length := by
  obtain ⟨d, h1, h2, h3⟩ := count_kmers_complete kmer_index kmers hnd hmem
  exact ⟨d, h1, h2, fun p _ => Nat.zero_le p.2, h3⟩

/-- Witness for C1 at a concrete universe and k-mer list. -/
theorem c1_witness :
    ∃ d, count_kmers [("AA").toList, ("AC").toList]
        [("AA").toList, ("AC").toList, ("AA").toList] = some d ∧
      akeys d = [("AA").toList, ("AC").toList] ∧
      (∀ p ∈ d, 0 ≤ p.2) ∧
      (d.map Prod.snd).sum =
        ([("AA").toList, ("AC").toList, ("AA").toList]).length :=
  c1_count_kmers_spec _ _ (by decide) (by decide)

/-- C3: for k ≥ 1, extract_all_kmers is the forward k-mers followed by the
reverse-complement k-mers, each strand contributing max(0, len − k + 1)
k-mers, the forward ones being the substrings at successive start offsets. -/
theorem c3_extract_all_kmers_spec (s : List Char) (k : Nat) (hk : 1 ≤ k) :
    extract_all_kmers s k =
        extract_kmers s k ++ extract_kmers (reverse_complement s) k ∧
      (extract_kmers s k).length = ((s.length : ℤ) - k + 1).toNat ∧
      (extract_kmers (reverse_complement s) k).length =
        ((s.length : ℤ) - k + 1).toNat ∧
      ∀ i, (h : i < (extract_kmers s k).length) →
        (extract_kmers s k)[i] = (s.drop i).take k := by
  refine ⟨rfl, extract_kmers_length s k, ?_, ?_⟩
  · rw [extract_kmers_length, reverse_complement_length]
  · intro i h
    by_cases hl : s.length < k
    · rw [extract_kmers_length] at h
      omega
    · simp only [extract_kmers, hl, if_false] at h ⊢
      simp [List.getElem_map, List.getElem_range]

/-- Witness for C3 at sequence ACGT with k = 2. -/
theorem c3_witness :
    1 ≤ 2 ∧
      (extract_all_kmers ("ACGT").toList 2 =
          extract_kmers ("ACGT").toList 2 ++
            extract_kmers (reverse_complement ("ACGT").toList) 2 ∧
        (extract_kmers ("ACGT").toList 2).length =
          ((("ACGT").toList.length : ℤ) - 2 + 1).toNat ∧
        (extract_kmers (reverse_complement ("ACGT").toList) 2).length =
          ((("ACGT").toList.length : ℤ) - 2 + 1).toNat ∧
        ∀ i, (h : i < (extract_kmers ("ACGT").toList 2).length) →
          (extract_kmers ("ACGT").toList 2)[i] =
            (("ACGT").toList.drop i).take 2) :=
  ⟨by decide, c3_extract_all_kmers_spec (("ACGT").toList) 2 (by decide)⟩

/-- C4: the k-mer universe has no duplicates and contains every k-mer,
forward and reverse complement, extracted from every listed sequence. -/
theorem c4_unique_kmers_spec (sequences : List (List Char × List Char))
    (k : Nat) :
    (get_unique_kmers sequences k).Nodup ∧
      ∀ name seq : List Char, (name, seq) ∈ sequences →
        ∀ km ∈ extract_all_kmers seq k, km ∈ get_unique_kmers sequences k := by
  refine ⟨get_unique_kmers_nodup sequences k, ?_⟩
  intro name seq hmem km hkm
  exact mem_get_unique_kmers sequences k name seq hmem km hkm

/-- Witness for C4 at a concrete two-sequence mapping with k = 2. -/
theorem c4_witness :
    (get_unique_kmers [((">s1").toList, ("ACGT").toList),
        ((">s2").toList, ("TT").toList)] 2).Nodup ∧
      ∀ name seq : List Char,
        (name, seq) ∈ [((">s1").toList, ("ACGT").toList),
          ((">s2").toList, ("TT").toList)] →
        ∀ km ∈ extract_all_kmers seq 2,
          km ∈ get_unique_kmers [((">s1").toList, ("ACGT").toList),
            ((">s2").toList, ("TT").toList)] 2 :=
  c4_unique_kmers_spec _ 2

/-- C7: every k-mer extracted from a listed sequence lies in the universe
built from the same mapping and the same k, so the missing-key branch of
the increment loop cannot fire and count_kmers succeeds. -/
theorem c7_universe_complete (sequences : List (List Char × List Char))
    (k : Nat) (name seq : List Char) (hmem : (name, seq) ∈ sequences) :
    (∀ km ∈ extract_all_kmers seq k, km ∈ get_unique_kmers sequences k) ∧
      ∃ d, count_kmers (get_unique_kmers sequences k)
        (extract_all_kmers seq k) = some d := by
  have hcov : ∀ km ∈ extract_all_kmers seq k,
      km ∈ get_unique_kmers sequences k :=
    fun km hkm => mem_get_unique_kmers sequences k name seq hmem km hkm
  obtain ⟨d, h1, _, _⟩ :=
    count_kmers_complete _ _ (get_unique_kmers_nodup sequences k) hcov
  exact ⟨hcov, d, h1⟩

/-- Witness for C7 at a concrete mapping, record and k. -/
theorem c7_witness :
    (∀ km ∈ extract_all_kmers ("AC").toList 2,
        km ∈ get_unique_kmers [((">s1").toList, ("ACGT").toList),
          ((">s2").toList, ("AC").toList)] 2) ∧
      ∃ d, count_kmers (get_unique_kmers [((">s1").toList, ("ACGT").toList),
          ((">s2").toList, ("AC").toList)] 2)
        (extract_all_kmers ("AC").toList 2) = some d :=
  c7_universe_complete _ 2 ((">s2").toList) (("AC").toList) (by decide)

/-- C8 counterexample: for the header >ab(tab)c d, whose description hides a
tab before the first space, the identifier the code computes keeps the tab
and the following characters, while stripping > and truncating at the first
whitespace character would stop at the tab. -/
theorem c8_counterexample :
    display_id (">ab\tc d").toList = ("ab\tc").toList ∧
      display_id_spec (">ab\tc d").toList = ("ab").toList ∧
      display_id (">ab\tc d").toList ≠ display_id_spec (">ab\tc d").toList :=
  ⟨by decide, by decide, by decide⟩

/-- C8 amended: for every header line starting with >, the display
identifier equals the header with the leading > stripped and truncated at
the first space character; other whitespace, such as a tab, does not
truncate. -/
theorem c8_amended_display_id (t : List Char) :
    display_id ('>' :: t) = t.takeWhile (fun c => c ≠ spaceChar) := rfl

/-- Witness for C8 amended at a concrete header tail. -/
theorem c8_amended_witness :
    display_id ('>' :: ("ab cd").toList) =
      ("ab cd").toList.takeWhile (fun c => c ≠ spaceChar) :=
  c8_amended_display_id (("ab cd").toList)

/-- C10: when two distinct records share a display identifier, main's
accumulation keeps a single entry under that identifier holding the later
record's count mapping, so the table has one column per distinct
identifier. -/
theorem c10_overwrite (n1 s1 n2 s2 : List Char) (k : Nat) (hne : n1 ≠ n2)
    (hid : display_id n1 = display_id n2) :
    ∃ d2, count_kmers (get_unique_kmers [(n1, s1), (n2, s2)] k)
        (extract_all_kmers s2 k) = some d2 ∧
      mainCounts [(n1, s1), (n2, s2)] k = some [(display_id n2, d2)] ∧
      (build_kmer_freq_index [(display_id n2, d2)]).cols =
        [display_id n2] := by
  have hU := get_unique_kmers_nodup [(n1, s1), (n2, s2)] k
  have hm1 : ∀ km ∈ extract_all_kmers s1 k,
      km ∈ get_unique_kmers [(n1, s1), (n2, s2)] k :=
    fun km hkm => mem_get_unique_kmers _ k n1 s1 (by simp) km hkm
  have hm2 : ∀ km ∈ extract_all_kmers s2 k,
      km ∈ get_unique_kmers [(n1, s1), (n2, s2)] k :=
    fun km hkm => mem_get_unique_kmers _ k n2 s2 (by simp) km hkm
  obtain ⟨d1, hd1, _, _⟩ := count_kmers_complete _ _ hU hm1
  obtain ⟨d2, hd2, _, _⟩ := count_kmers_complete _ _ hU hm2
  refine ⟨d2, hd2, ?_, rfl⟩
  have hstep1 : aset ([] : List (List Char × List (List Char × Nat)))
      (display_id n1) d1 = [(display_id n1, d1)] := by
    unfold aset
    simp
  have hstep2 : aset [(display_id n1, d1)] (display_id n2) d2 =
      [(display_id n2, d2)] := by
    unfold aset
    rw [← hid]
    simp
  unfold mainCounts
  simp only [accumCounts, hd1, hd2]
  rw [hstep1, hstep2]

/-- Witness for C10 at two concrete records whose headers agree before the
first space. -/
theorem c10_witness :
    ((">a x").toList ≠ (">a y").toList) ∧
      display_id (">a x").toList = display_id (">a y").toList ∧
      ∃ d2, count_kmers (get_unique_kmers [((">a x").toList, ("AC").toList),
          ((">a y").toList, ("GT").toList)] 1)
          (extract_all_kmers ("GT").toList 1) = some d2 ∧
        mainCounts [((">a x").toList, ("AC").toList),
          ((">a y").toList, ("GT").toList)] 1 =
            some [(display_id (">a y").toList, d2)] ∧
        (build_kmer_freq_index [(display_id (">a y").toList, d2)]).cols =
          [display_id (">a y").toList] :=
  ⟨by decide, by decide,
    c10_overwrite ((">a x").toList) (("AC").toList) ((">a y").toList)
      (("GT").toList) 1 (by decide) (by decide)⟩

/-- C2: for a non-empty family of count dicts sharing one duplicate-free key
set, with distinct column names and positive column totals, the table has
the k-mer strings as rows sorted lexicographically, each cell is the count
divided by its column's total, and every column sums to exactly 1. -/
theorem c2_build_freq_spec (acc : List (List Char × List (List Char × Nat)))
    (U : List (List Char)) (hne : acc ≠ []) (hUnd : U.Nodup)
    (hkeys : ∀ p ∈ acc, (akeys p.2).Perm U)
    (hnames : (akeys acc).Nodup)
    (htot : ∀ p ∈ acc, 0 < colTotal p.2) :
    List.Pairwise (fun a b => listLe a b = true)
        (build_kmer_freq_index acc).rows ∧
      ((build_kmer_freq_index acc).rows).Perm U ∧
      (∀ p ∈ acc, ∀ km : List Char, ∀ c : Nat, alookup km p.2 = some c →
        (build_kmer_freq_index acc).entry km p.1 =
          some ((c : ℚ) / (colTotal p.2 : ℚ))) ∧
      (∀ p ∈ acc, (((build_kmer_freq_index acc).rows).map
        (fun km => ((build_kmer_freq_index acc).entry km p.1).getD 0)).sum
          = 1) := by
  have hrows_eq : (build_kmer_freq_index acc).rows =
      ((acc.map (fun p => akeys p.2)).flatten.dedup).mergeSort listLe := rfl
  have hrows_dedup : ((build_kmer_freq_index acc).rows).Perm
      ((acc.map (fun p => akeys p.2)).flatten.dedup) := by
    rw [hrows_eq]
    exact List.mergeSort_perm _ _
  have hded_perm_U : ((acc.map (fun p => akeys p.2)).flatten.dedup).Perm U := by
    apply List.Subperm.antisymm
    · apply List.Nodup.subperm (List.nodup_dedup _)
      intro x hx
      rw [List.mem_dedup, List.mem_flatten] at hx
      obtain ⟨l, hl, hxl⟩ := hx
      rw [List.mem_map] at hl
      obtain ⟨p, hp, rfl⟩ := hl
      exact (hkeys p hp).subset hxl
    · apply List.Nodup.subperm hUnd
      intro x hx
      obtain ⟨p0, hp0⟩ := List.exists_mem_of_ne_nil acc hne
      rw [List.mem_dedup, List.mem_flatten]
      refine ⟨akeys p0.2, ?_, ?_⟩
      · rw [List.mem_map]
        exact ⟨p0, hp0, rfl⟩
      · exact ((hkeys p0 hp0).mem_iff).mpr hx
  have hrowsU : ((build_kmer_freq_index acc).rows).Perm U :=
    hrows_dedup.trans hded_perm_U
  have hentry : ∀ p ∈ acc, ∀ km : List Char, ∀ c : Nat, alookup km p.2 = some c →
      (build_kmer_freq_index acc).entry km p.1 =
        some ((c : ℚ) / (colTotal p.2 : ℚ)) := by
    intro p hp km c hc
    have hsacc : alookup p.1 acc = some p.2 := alookup_of_mem_nodup hnames hp
    have ht : ¬ (colTotal p.2 = 0) := by
      have := htot p hp
      omega
    show freqEntry acc km p.1 = _
    simp only [freqEntry, hsacc, hc]
    simp [ht]
  refine ⟨?_, hrowsU, hentry, ?_⟩
  · rw [hrows_eq]
    exact List.sorted_mergeSort listLe_trans listLe_total _
  · intro p hp
    have hndk : (akeys p.2).Nodup := ((hkeys p hp).nodup_iff).mpr hUnd
    have hpk : ((build_kmer_freq_index acc).rows).Perm (akeys p.2) :=
      hrowsU.trans (hkeys p hp).symm
    have htne : (colTotal p.2 : ℚ) ≠ 0 := by
      have := htot p hp
      exact_mod_cast Nat.pos_iff_ne_zero.mp this
    have hstepA : ((build_kmer_freq_index acc).rows).map
        (fun km => ((build_kmer_freq_index acc).entry km p.1).getD 0) =
        ((build_kmer_freq_index acc).rows).map
          (fun km => (((alookup km p.2).getD 0 : Nat) : ℚ) /
            (colTotal p.2 : ℚ)) := by
      apply List.map_congr_left
      intro km hkm
      have hkmem : km ∈ akeys p.2 := hpk.subset hkm
      obtain ⟨c, hc⟩ := mem_akeys_alookup hkmem
      rw [hentry p hp km c hc, hc]
      simp
    rw [hstepA]
    rw [(hpk.map (fun km => (((alookup km p.2).getD 0 : Nat) : ℚ) /
      (colTotal p.2 : ℚ))).sum_eq]
    have hstepC : (akeys p.2).map (fun km =>
        (((alookup km p.2).getD 0 : Nat) : ℚ) / (colTotal p.2 : ℚ)) =
        ((akeys p.2).map
          (fun km => (((alookup km p.2).getD 0 : Nat) : ℚ))).map
            (fun x => x / (colTotal p.2 : ℚ)) := by
      rw [List.map_map]
      rfl
    rw [hstepC, sum_map_div, sum_alookup_eq_colTotal p.2 hndk, div_self htne]

/-- Witness for C2 at a one-column family over the universe \x7bCA, AA\x7d. -/
theorem c2_witness :
    List.Pairwise (fun a b => listLe a b = true)
        (build_kmer_freq_index
          [(("s1").toList, [(("CA").toList, 1), (("AA").toList, 3)])]).rows ∧
      ((build_kmer_freq_index
        [(("s1").toList, [(("CA").toList, 1), (("AA").toList, 3)])]).rows).Perm
          [("CA").toList, ("AA").toList] ∧
      (∀ p ∈ [(("s1").toList, [(("CA").toList, 1), (("AA").toList, 3)])],
        ∀ km : List Char, ∀ c : Nat, alookup km p.2 = some c →
          (build_kmer_freq_index
            [(("s1").toList,
              [(("CA").toList, 1), (("AA").toList, 3)])]).entry km p.1 =
            some ((c : ℚ) / (colTotal p.2 : ℚ))) ∧
      (∀ p ∈ [(("s1").toList, [(("CA").toList, 1), (("AA").toList, 3)])],
        (((build_kmer_freq_index
          [(("s1").toList,
            [(("CA").toList, 1), (("AA").toList, 3)])]).rows).map
          (fun km => ((build_kmer_freq_index
            [(("s1").toList,
              [(("CA").toList, 1), (("AA").toList, 3)])]).entry
                km p.1).getD 0)).sum = 1) :=
  c2_build_freq_spec
    [(("s1").toList, [(("CA").toList, 1), (("AA").toList, 3)])]
    [("CA").toList, ("AA").toList]
    (by decide) (by decide)
    (by
      intro p hp
      rw [List.mem_singleton] at hp
      subst hp
      exact List.Perm.refl _)
    (by decide)
    (by
      intro p hp
      rw [List.mem_singleton] at hp
      subst hp
      decide)

/-- C5 at a failing input: the second record is shorter than k, its column
total is 0, the pipeline raises nothing, and both of that column's cells in
the normalized table are NaN (modelled as none) instead of an error naming
the sequence. -/
theorem c5_zero_total_nan :
    mainCounts [((">s1 x").toList, ("ACGT").toList),
        ((">s2 y").toList, ("AC").toList)] 3 =
      some [(("s1").toList, [(("ACG").toList, 2), (("CGT").toList, 2)]),
        (("s2").toList, [(("ACG").toList, 0), (("CGT").toList, 0)])] ∧
      colTotal [(("ACG").toList, 0), (("CGT").toList, 0)] = 0 ∧
      freqEntry [(("s1").toList, [(("ACG").toList, 2), (("CGT").toList, 2)]),
          (("s2").toList, [(("ACG").toList, 0), (("CGT").toList, 0)])]
        (("ACG").toList) (("s2").toList) = none ∧
      freqEntry [(("s1").toList, [(("ACG").toList, 2), (("CGT").toList, 2)]),
          (("s2").toList, [(("ACG").toList, 0), (("CGT").toList, 0)])]
        (("CGT").toList) (("s2").toList) = none := by
  decide

/-- C6 at a failing input: with k = 5 exceeding every sequence length the
universe is empty, the pipeline raises nothing, and the table comes out
with no rows at all (an empty CSV) instead of a parameter error. -/
theorem c6_empty_universe_no_error :
    get_unique_kmers [((">s1 x").toList, ("ACG").toList)] 5 = [] ∧
      mainCounts [((">s1 x").toList, ("ACG").toList)] 5 =
        some [(("s1").toList, [])] ∧
      (build_kmer_freq_index [(("s1").toList, [])]).rows = [] ∧
      (build_kmer_freq_index [(("s1").toList, [])]).cols = [("s1").toList] :=
  ⟨by decide, by decide,
    by simp [build_kmer_freq_index, freqRows, akeys], by decide⟩

/-- C9 at a failing input: the subplot loop resolves the attribute his,
which a matplotlib Axes does not have, so the histogram call raises
AttributeError for every non-empty count family and no histogram is
shown. -/
theorem c9_hist_attribute_error :
    all_kmer_counts_hist [(("s1").toList, [(("AA").toList, 2)]),
        (("s2").toList, [(("AA").toList, 0)])] =
      Except.error ("AttributeError: his") := rfl
